import Mathlib

/-!
# Verification of the terraform cost estimation repository

Shallow embedding of the pricing index / lookup engine and of the frontend
helper functions of the repository, together with theorems settling the
frozen claims about its specification.

JavaScript numbers are modelled as rationals (ℚ); JavaScript nullable
values are modelled as `Option`; JavaScript strings are modelled as
`String` or, where character-level reasoning is needed, as `List Char`.
-/

namespace TerraformCost

/-! ## Frontend: convertCost (src/frontend/app.js, lines 144-167)

`convertCost(monthlyCost, unit, customVal = null)` converts a monthly cost
to the selected display time unit.  The JavaScript falsiness test
`!monthlyCost || monthlyCost === 0` holds exactly when the cost is
`null`/`undefined` (modelled `none`) or the number `0`; the test
`customVal && customVal > 0` holds exactly when `customVal` is a number
greater than `0`. -/

def convertCost (monthlyCost : Option ℚ) (unit : String) (customVal : Option ℚ) : ℚ :=
  match monthlyCost with
  | none => 0
  | some mc =>
    if mc = 0 then 0
    else
      match unit with
      | "monthly" => mc
      | "hourly" => mc / 730
      | "daily" => mc / 30
      | "hours" =>
        match customVal with
        | some cv => if 0 < cv then mc / 730 * cv else mc / 730
        | none => mc / 730
      | "users" =>
        match customVal with
        | some cv => if 0 < cv then mc / cv else mc
        | none => mc
      | _ => mc

/-! ## Frontend: escapeCSV (src/frontend/app.js, lines 1608-1615)

`escapeCSV(value)` returns the empty string for `null`/`undefined`; for
other values it takes `str = String(value)` (modelled here as the list of
characters of that string) and, when `str` contains a comma, a double
quote or a newline, wraps it in double quotes after doubling every
internal double quote. -/

def escapeChars : List Char → List Char
  | [] => []
  | c :: cs => if c = '\"' then '\"' :: '\"' :: escapeChars cs else c :: escapeChars cs

def escapeCSV (value : Option (List Char)) : List Char :=
  match value with
  | none => []
  | some s =>
    if s.contains ',' || s.contains '\"' || s.contains '\n' then
      '\"' :: (escapeChars s ++ ['\"'])
    else s

/-- Standard CSV unquoting of the interior of a quoted field: every
doubled double quote collapses to a single one. -/
def unescapeChars : List Char → List Char
  | [] => []
  | [c] => [c]
  | c1 :: c2 :: rest =>
    if c1 = '\"' && c2 = '\"' then c1 :: unescapeChars rest
    else c1 :: unescapeChars (c2 :: rest)

/-- Standard CSV field parsing: a field that starts and ends with a double
quote is unquoted (outer quotes stripped, doubled quotes collapsed); any
other field is taken verbatim. -/
def csvParseField (cs : List Char) : List Char :=
  if 2 ≤ cs.length ∧ cs.head? = some '\"' ∧ cs.getLast? = some '\"' then
    unescapeChars (cs.drop 1).dropLast
  else cs

/-! ## Frontend: groupByCategory (src/frontend/app.js, lines 268-299;
the identical function also appears in src/frontend/share.js, lines 68-99)

Line items whose `priced` field is falsy, or whose `monthly_cost_usd` is
strictly equal to the number `0`, are skipped.  The remaining items are
grouped by `item.category || "unknown"`; each group accumulates its
items, their total cost (`item.monthly_cost_usd || 0`) and a resource
count, and the overall total accumulates the same costs.  A final pass
computes each group's percentage of the overall total. -/

structure LineItem where
  priced : Bool
  monthly_cost_usd : Option ℚ
  category : Option String
deriving Repr, DecidableEq

structure CategoryGroup where
  category : String
  items : List LineItem
  totalCost : ℚ
  resourceCount : ℕ
  percentage : ℚ
deriving Repr

def categoryOf (item : LineItem) : String := item.category.getD "unknown"

def costOf (item : LineItem) : ℚ := item.monthly_cost_usd.getD 0

def includeItem (item : LineItem) : Bool :=
  item.priced && !(item.monthly_cost_usd == some 0)

def addToGroups : List CategoryGroup → String → LineItem → List CategoryGroup
  | [], cat, item => [⟨cat, [item], costOf item, 1, 0⟩]
  | g :: gs, cat, item =>
    if g.category = cat then
      { g with items := g.items ++ [item], totalCost := g.totalCost + costOf item,
               resourceCount := g.resourceCount + 1 } :: gs
    else g :: addToGroups gs cat item

def groupStep (st : List CategoryGroup × ℚ) (item : LineItem) : List CategoryGroup × ℚ :=
  if includeItem item then (addToGroups st.1 (categoryOf item) item, st.2 + costOf item) else st

def groupByCategory (lineItems : List LineItem) : List CategoryGroup × ℚ :=
  let st := lineItems.foldl groupStep ([], 0)
  (st.1.map (fun g =>
    { g with percentage := if 0 < st.2 then g.totalCost / st.2 * 100 else 0 }), st.2)

/-! ## Pricing sync: manifest construction (src/aws-pricing-sync.mjs, lines 118-239)

`main` fetches a region index per service, plans one download task per
kept region, and writes a manifest whose `services` array holds, per
service, the service code, its region index URL, the region index's
publication date, and one `files` entry `{regionCode, url, path}` per
planned download.  Filesystem paths are modelled as lists of path
segments, so that `path.join` is list append, `path.dirname` drops the
last segment, and `path.relative(base, p)` (used only with `base` a
prefix of `p`) drops the leading `base` segments. -/

def BASE : String := "https://pricing.us-east-1.amazonaws.com"

/-- `toAbsUrl` (lines 49-54): `null`/empty is falsy and yields `null`;
an absolute http(s) URL is returned unchanged; a relative URL is
prefixed with the AWS pricing base URL. -/
def toAbsUrl (u : Option String) : Option String :=
  match u with
  | none => none
  | some s =>
    if s = "" then none
    else if s.startsWith "http://" || s.startsWith "https://" then some s
    else some (BASE ++ s)

structure RegionEntry where
  key : String
  regionCode : Option String
  currentVersionUrl : Option String
deriving Repr, DecidableEq

structure RegionIndexDoc where
  publicationDate : Option String
  regions : List RegionEntry
deriving Repr, DecidableEq

/-- `r.regionCode || key` (line 194). -/
def regionCodeOf (e : RegionEntry) : String := e.regionCode.getD e.key

/-- Line 200: the stored file is named `regionCode.json` plus `.gz` when
gzip is on. -/
def fileNameFor (gzip : Bool) (rc : String) : String :=
  rc ++ ".json" ++ (if gzip then ".gz" else "")

/-- `path.relative base p`, used only where `base` is a prefix of `p`. -/
def relativeTo (base p : List String) : List String := p.drop base.length

structure SyncTask where
  serviceCode : String
  regionCode : String
  url : String
  destPath : List String
  gzip : Bool
deriving Repr, DecidableEq

structure FileEntry where
  regionCode : String
  url : String
  path : List String
deriving Repr, DecidableEq

structure ServiceEntry where
  serviceCode : String
  regionIndexUrl : String
  publicationDate : Option String
  files : List FileEntry
deriving Repr, DecidableEq

/-- Line 195: a region is kept when there is no region filter or the
filter contains its region code. -/
def regionKept (filter : Option (List String)) (rc : String) : Bool :=
  match filter with
  | some f => f.contains rc
  | none => true

/-- One iteration of the region loop (lines 192-217): skip regions
excluded by the region filter and regions with no current version URL;
otherwise produce the download task and the manifest file entry. -/
def regionOutput (out : List String) (svc : String) (gzip : Bool)
    (filter : Option (List String)) (e : RegionEntry) : Option (SyncTask × FileEntry) :=
  let rc := regionCodeOf e
  if regionKept filter rc then
    match toAbsUrl e.currentVersionUrl with
    | some priceUrl =>
      let dest := out ++ [svc, fileNameFor gzip rc]
      some (⟨svc, rc, priceUrl, dest, gzip⟩,
            ⟨rc, priceUrl, relativeTo out.dropLast dest⟩)
    | none => none
  else none

/-- The input one service contributes: its code, region index URL and
fetched region index document. -/
structure ServiceInput where
  serviceCode : String
  regionIndexUrl : String
  doc : RegionIndexDoc
deriving Repr, DecidableEq

def tasksOf (out : List String) (gzip : Bool) (filter : Option (List String))
    (si : ServiceInput) : List SyncTask :=
  (si.doc.regions.filterMap (regionOutput out si.serviceCode gzip filter)).map Prod.fst

def serviceEntryOf (out : List String) (gzip : Bool) (filter : Option (List String))
    (si : ServiceInput) : ServiceEntry :=
  { serviceCode := si.serviceCode
    regionIndexUrl := si.regionIndexUrl
    publicationDate := si.doc.publicationDate
    files := (si.doc.regions.filterMap (regionOutput out si.serviceCode gzip filter)).map Prod.snd }

def manifestServices (out : List String) (gzip : Bool) (filter : Option (List String))
    (sis : List ServiceInput) : List ServiceEntry :=
  sis.map (serviceEntryOf out gzip filter)

/-- Looking a (service, region) pair up in the written manifest: find the
service entry, then the file entry for the region, and read off the
recorded file path together with the publication timestamp recorded for
that service. -/
def manifestLookup (services : List ServiceEntry) (svc rc : String) :
    Option (List String × Option String) :=
  match services.find? (fun se => se.serviceCode = svc) with
  | some se => (se.files.find? (fun f => f.regionCode = rc)).map (fun f => (f.path, se.publicationDate))
  | none => none

/-! ## Pricing core (spec-modelled)

The pricing index and lookup engine lives in the Python backend
(`backend/pricing/aws_bulk_pricing.py` per the repository's own
documentation), which is not among the provided source files; only its
documentation, callers and ancillary scripts are.  The definitions below
are therefore modelled from the spec. -/

/-- Modelled from the spec: the `unit` enum of a PriceRecord (spec §3). -/
inductive PriceUnit
  | hour
  | gbMonth
  | request
  | gbTransferred
  | other
deriving Repr, DecidableEq

/-- Modelled from the spec: PriceRecord (spec §3) — immutable value with
a unit, a non-negative unit price, attributes, and an opaque source SKU. -/
structure PriceRecord where
  unit : PriceUnit
  unitPriceUsd : ℚ
  attributes : List (String × String)
  sourceSku : String
deriving Repr, DecidableEq

/-- A built region index maps lookup keys to at most one price record
(spec §3, RegionIndex). -/
def RegionIdx : Type := String → Option PriceRecord

/-- Modelled from the spec: the collision tie-break of the index build
(spec §3/§4.2) — of two records for the same key, keep the one with the
lexicographically first source SKU. -/
def keepBetter (a b : PriceRecord) : PriceRecord :=
  if a.sourceSku ≤ b.sourceSku then a else b

/-- Modelled from the spec: inserting one record into the partial index
under its lookup key, applying the tie-break on collision (spec §4.2). -/
def insertRecord (keyFn : PriceRecord → String) (idx : RegionIdx) (r : PriceRecord) :
    RegionIdx :=
  fun k =>
    if k = keyFn r then
      match idx k with
      | none => some r
      | some r0 => some (keepBetter r0 r)
    else idx k

/-- Modelled from the spec: the Region Index build step (spec §4.2) —
for each record in catalog order, compute its lookup key and insert. -/
def buildIndex (keyFn : PriceRecord → String) (records : List PriceRecord) : RegionIdx :=
  records.foldl (insertRecord keyFn) (fun _ => none)

/-- Modelled from the spec: `entryCount` — the number of distinct lookup
keys after collision resolution (spec §4.2). -/
def entryCount (keyFn : PriceRecord → String) (records : List PriceRecord) : ℕ :=
  ((records.map keyFn).dedup).length

/-- Modelled from the spec: the unit conversion table of the Lookup
Facade (spec §4.4) — Hour is normalized with the fixed 730 hours-per-month
convention, the other units multiply the unit price by the caller-supplied
quantity. -/
def unitMonthlyCost (u : PriceUnit) (unitPriceUsd qty : ℚ) : ℚ :=
  match u with
  | .hour => unitPriceUsd * 730
  | .gbMonth => unitPriceUsd * qty
  | .request => unitPriceUsd * qty
  | .gbTransferred => unitPriceUsd * qty
  | .other => unitPriceUsd * qty

/-- Modelled from the spec: the produced interface (spec §6) — each query
yields either a priced result or a structured unpriced result. -/
inductive LookupResult
  | priced (unit : PriceUnit) (unitPriceUsd monthlyCostUsd : ℚ) (sourceSku : String)
  | unpriced (reason : String)
deriving Repr, DecidableEq

/-- Modelled from the spec: the Lookup Facade's key lookup against a
successfully built index (spec §4.4) — a hit converts the record's unit
price to a monthly cost; a miss returns the structured unpriced result,
never an error. -/
def lookupInIndex (idx : RegionIdx) (key : String) (qty : ℚ) : LookupResult :=
  match idx key with
  | some r => .priced r.unit r.unitPriceUsd (unitMonthlyCost r.unit r.unitPriceUsd qty) r.sourceSku
  | none => .unpriced "no matching SKU for given attributes"

/-! ## Index cache / coordinator (spec-modelled)

Modelled from the spec: the IndexCache keyed by (service, region) with
slots "not yet built", "build in progress" (with waiters) and "built"
(spec §3, §4.3).  `getOrBuild` is split into its two atomic cache
transitions: a caller's arrival (`call`) and the completion of the
in-flight build (`complete`).  A build failure is delivered to every
waiter and clears the slot back to "not yet built" instead of being
cached (spec §4.3). -/

/-- A (service, region) key. -/
def SrKey : Type := String × String

instance : DecidableEq SrKey := by
  unfold SrKey; infer_instance

inductive Slot
  | notBuilt
  | inProgress
  | built (idx : RegionIdx)

inductive BuildOutcome
  | success (idx : RegionIdx)
  | failure (err : String)

structure CacheState where
  slot : SrKey → Slot
  loads : SrKey → ℕ
  waiting : SrKey → List ℕ
  done : ℕ → Option BuildOutcome

inductive CacheEvent
  | call (c : ℕ) (k : SrKey)
  | complete (k : SrKey) (o : BuildOutcome)

def eventKey : CacheEvent → SrKey
  | .call _ k => k
  | .complete k _ => k

/-- Delivering one build outcome to a list of waiting callers. -/
def deliver (done : ℕ → Option BuildOutcome) (cs : List ℕ) (o : BuildOutcome) :
    ℕ → Option BuildOutcome :=
  fun c => if c ∈ cs then some o else done c

/-- Modelled from the spec: the atomic cache transitions of
`getOrBuild` (spec §4.3).  A caller arriving at a built slot returns the
index immediately; at an in-progress slot it joins the waiters; at an
unbuilt slot it atomically marks the build in progress, invoking the
catalog loader (counted in `loads`).  A completing build delivers its
outcome to all waiters, publishes the index on success, and clears the
in-progress marker on failure so a later call retries. -/
def step (σ : CacheState) (e : CacheEvent) : CacheState :=
  match e with
  | .call c k =>
    match σ.slot k with
    | .built idx =>
      { σ with done := fun c2 => if c2 = c then some (.success idx) else σ.done c2 }
    | .inProgress =>
      { σ with waiting := fun k2 => if k2 = k then c :: σ.waiting k else σ.waiting k2 }
    | .notBuilt =>
      { σ with
        slot := fun k2 => if k2 = k then .inProgress else σ.slot k2
        loads := fun k2 => if k2 = k then σ.loads k + 1 else σ.loads k2
        waiting := fun k2 => if k2 = k then [c] else σ.waiting k2 }
  | .complete k o =>
    match σ.slot k with
    | .inProgress =>
      { σ with
        slot := fun k2 =>
          if k2 = k then
            match o with
            | .success idx => .built idx
            | .failure _ => .notBuilt
          else σ.slot k2
        waiting := fun k2 => if k2 = k then [] else σ.waiting k2
        done := deliver σ.done (σ.waiting k) o }
    | _ => σ

def run (σ : CacheState) (es : List CacheEvent) : CacheState := es.foldl step σ

/-- The result a lookup for key `k` observes from the cache alone: a
value exactly when `k` holds a built index. -/
def cachedLookup (σ : CacheState) (k : SrKey) (key : String) (qty : ℚ) :
    Option LookupResult :=
  match σ.slot k with
  | .built idx => some (lookupInIndex idx key qty)
  | _ => none

/-! ## Claim C8: convertCost -/

/-- C8: convertCost returns 0 for a zero, null or undefined monthly cost;
returns the monthly cost unchanged for unit "monthly" and for any
unrecognized unit; mc / 730 for "hourly"; mc / 30 for "daily";
(mc / 730) × customVal for "hours" with a positive custom value and
mc / 730 otherwise; and mc / customVal for "users" with a positive
custom value and mc unchanged otherwise. -/
theorem convertCost_spec (mc : ℚ) (cv : Option ℚ) (unit : String) (hmc : mc ≠ 0) :
    convertCost none unit cv = 0
    ∧ convertCost (some 0) unit cv = 0
    ∧ convertCost (some mc) "monthly" cv = mc
    ∧ (unit ≠ "monthly" → unit ≠ "hourly" → unit ≠ "daily" → unit ≠ "hours" →
        unit ≠ "users" → convertCost (some mc) unit cv = mc)
    ∧ convertCost (some mc) "hourly" cv = mc / 730
    ∧ convertCost (some mc) "daily" cv = mc / 30
    ∧ (∀ c : ℚ, 0 < c → convertCost (some mc) "hours" (some c) = mc / 730 * c)
    ∧ (∀ c : ℚ, ¬0 < c → convertCost (some mc) "hours" (some c) = mc / 730)
    ∧ convertCost (some mc) "hours" none = mc / 730
    ∧ (∀ c : ℚ, 0 < c → convertCost (some mc) "users" (some c) = mc / c)
    ∧ (∀ c : ℚ, ¬0 < c → convertCost (some mc) "users" (some c) = mc)
    ∧ convertCost (some mc) "users" none = mc := by
  refine ⟨rfl, by simp [convertCost], by simp [convertCost, hmc], ?_, by simp [convertCost, hmc],
    by simp [convertCost, hmc], ?_, ?_, by simp [convertCost, hmc], ?_, ?_,
    by simp [convertCost, hmc]⟩
  · intro h1 h2 h3 h4 h5
    simp only [convertCost, if_neg hmc]
  · intro c hc
    simp [convertCost, hmc, hc]
  · intro c hc
    simp [convertCost, hmc, hc]
  · intro c hc
    simp [convertCost, hmc, hc]
  · intro c hc
    simp [convertCost, hmc, hc]

/-- C8 witness: the theorem applied at concrete inputs. -/
theorem convertCost_spec_witness :
    convertCost none "monthly" none = 0
    ∧ convertCost (some 5) "hourly" none = 5 / 730
    ∧ convertCost (some 5) "users" (some 2) = 5 / 2 :=
  ⟨(convertCost_spec 5 none "monthly" (by norm_num)).1,
   (convertCost_spec 5 none "hourly" (by norm_num)).2.2.2.2.1,
   (convertCost_spec 5 (some 2) "users" (by norm_num)).2.2.2.2.2.2.2.2.2.1 2 (by norm_num)⟩

/-! ## Claim C4: missing key -/

/-- C4: a query whose lookup key is absent from a successfully built
region index returns the structured unpriced result with reason
"no matching SKU for given attributes"; `lookupInIndex` is a total
function, so no error is ever raised. -/
theorem lookup_missing_key (idx : RegionIdx) (key : String) (qty : ℚ)
    (h : idx key = none) :
    lookupInIndex idx key qty = .unpriced "no matching SKU for given attributes" := by
  simp [lookupInIndex, h]

/-- C4 witness: the theorem applied to an empty index. -/
theorem lookup_missing_key_witness :
    lookupInIndex (fun _ => none) "t3.micro:linux:shared" 1
      = .unpriced "no matching SKU for given attributes" :=
  lookup_missing_key (fun _ => none) "t3.micro:linux:shared" 1 rfl

/-! ## Claim C2: unit conversion of successful lookups -/

/-- C2: every successful lookup converts the record's unit price by the
fixed table — Hour yields unitPriceUsd × 730, and GBMonth, Request and
GBTransferred yield unitPriceUsd × quantity; in particular an Hour record
with unit price 0.0104 at quantity 1 yields 7.592 per month, and a
GBMonth record with unit price 0.023 at quantity 100 yields 2.30. -/
theorem lookup_unit_conversion (idx : RegionIdx) (key : String) (qty : ℚ)
    (r : PriceRecord) (h : idx key = some r) :
    (r.unit = .hour → lookupInIndex idx key qty
        = .priced .hour r.unitPriceUsd (r.unitPriceUsd * 730) r.sourceSku)
    ∧ (r.unit = .gbMonth → lookupInIndex idx key qty
        = .priced .gbMonth r.unitPriceUsd (r.unitPriceUsd * qty) r.sourceSku)
    ∧ (r.unit = .request → lookupInIndex idx key qty
        = .priced .request r.unitPriceUsd (r.unitPriceUsd * qty) r.sourceSku)
    ∧ (r.unit = .gbTransferred → lookupInIndex idx key qty
        = .priced .gbTransferred r.unitPriceUsd (r.unitPriceUsd * qty) r.sourceSku)
    ∧ lookupInIndex (fun k => if k = "t3.micro:linux:shared"
          then some ⟨.hour, 104/10000, [], "sku-hour"⟩ else none)
        "t3.micro:linux:shared" 1
        = .priced .hour (104/10000) (7592/1000) "sku-hour"
    ∧ lookupInIndex (fun k => if k = "gp3:storage"
          then some ⟨.gbMonth, 23/1000, [], "sku-gb"⟩ else none)
        "gp3:storage" 100
        = .priced .gbMonth (23/1000) (230/100) "sku-gb" := by
  refine ⟨fun hu => ?_, fun hu => ?_, fun hu => ?_, fun hu => ?_, ?_, ?_⟩
  · simp [lookupInIndex, unitMonthlyCost, h, hu]
  · simp [lookupInIndex, unitMonthlyCost, h, hu]
  · simp [lookupInIndex, unitMonthlyCost, h, hu]
  · simp [lookupInIndex, unitMonthlyCost, h, hu]
  · simp [lookupInIndex, unitMonthlyCost]
    norm_num
  · simp [lookupInIndex, unitMonthlyCost]
    norm_num

/-- C2 witness: the theorem applied to a concrete one-record index. -/
theorem lookup_unit_conversion_witness :
    lookupInIndex (fun k => if k = "a" then some ⟨.hour, 2, [], "s"⟩ else none) "a" 3
      = .priced .hour 2 (2 * 730) "s" :=
  (lookup_unit_conversion
      (fun k => if k = "a" then some ⟨.hour, 2, [], "s"⟩ else none) "a" 3
      ⟨.hour, 2, [], "s"⟩ (by simp)).1 rfl

/-! ## Claim C10: groupByCategory -/

lemma sum_addToGroups (groups : List CategoryGroup) (cat : String) (item : LineItem) :
    ((addToGroups groups cat item).map CategoryGroup.totalCost).sum
      = (groups.map CategoryGroup.totalCost).sum + costOf item := by
  induction groups with
  | nil => simp [addToGroups]
  | cons g gs ih =>
    by_cases h : g.category = cat
    · simp only [addToGroups, if_pos h, List.map_cons, List.sum_cons]
      ring
    · simp only [addToGroups, if_neg h, List.map_cons, List.sum_cons, ih]
      ring

lemma mem_addToGroups_items {groups : List CategoryGroup} {cat : String} {item : LineItem}
    {g : CategoryGroup} {x : LineItem}
    (hg : g ∈ addToGroups groups cat item) (hx : x ∈ g.items) :
    (∃ g0 ∈ groups, x ∈ g0.items) ∨ x = item := by
  induction groups with
  | nil =>
    simp only [addToGroups, List.mem_singleton] at hg
    subst hg
    simp only [List.mem_singleton] at hx
    exact Or.inr hx
  | cons g1 gs ih =>
    by_cases h : g1.category = cat
    · simp only [addToGroups, if_pos h, List.mem_cons] at hg
      rcases hg with hg | hg
      · subst hg
        simp only [List.mem_append, List.mem_singleton] at hx
        rcases hx with hx | hx
        · exact Or.inl ⟨g1, by simp, hx⟩
        · exact Or.inr hx
      · exact Or.inl ⟨g, by simp [hg], hx⟩
    · simp only [addToGroups, if_neg h, List.mem_cons] at hg
      rcases hg with hg | hg
      · subst hg
        exact Or.inl ⟨g, by simp, hx⟩
      · rcases ih hg with ⟨g0, hg0, hx0⟩ | hx0
        · exact Or.inl ⟨g0, by simp [hg0], hx0⟩
        · exact Or.inr hx0

lemma grouped_items_include (l : List LineItem) (st : List CategoryGroup × ℚ)
    (hst : ∀ g ∈ st.1, ∀ x ∈ g.items, includeItem x = true) :
    ∀ g ∈ (l.foldl groupStep st).1, ∀ x ∈ g.items, includeItem x = true := by
  induction l generalizing st with
  | nil => exact hst
  | cons item rest ih =>
    simp only [List.foldl_cons]
    apply ih
    intro g hg x hx
    unfold groupStep at hg
    by_cases hinc : includeItem item
    · simp only [if_pos hinc] at hg
      rcases mem_addToGroups_items hg hx with ⟨g0, hg0, hx0⟩ | hx0
      · exact hst g0 hg0 x hx0
      · rw [hx0]; exact hinc
    · simp only [if_neg hinc] at hg
      exact hst g hg x hx

lemma grouped_total_eq_sum (l : List LineItem) (st : List CategoryGroup × ℚ)
    (hst : st.2 = (st.1.map CategoryGroup.totalCost).sum) :
    (l.foldl groupStep st).2 = ((l.foldl groupStep st).1.map CategoryGroup.totalCost).sum := by
  induction l generalizing st with
  | nil => exact hst
  | cons item rest ih =>
    simp only [List.foldl_cons]
    apply ih
    unfold groupStep
    by_cases hinc : includeItem item
    · simp only [if_pos hinc, sum_addToGroups, hst]
    · simp only [if_neg hinc, hst]

/-- C10: groupByCategory keeps unpriced and zero-cost items out of every
group, returns an overall totalCost equal to the sum of the per-category
totalCosts, and gives each category the percentage
totalCost / overall total × 100 when the overall total is positive and 0
otherwise. -/
theorem groupByCategory_spec (l : List LineItem) :
    (∀ x : LineItem, (x.priced = false ∨ x.monthly_cost_usd = some 0) →
        ∀ g ∈ (groupByCategory l).1, x ∉ g.items)
    ∧ (groupByCategory l).2 = ((groupByCategory l).1.map CategoryGroup.totalCost).sum
    ∧ (∀ g ∈ (groupByCategory l).1,
        g.percentage = if 0 < (groupByCategory l).2
          then g.totalCost / (groupByCategory l).2 * 100 else 0) := by
  have hitems := grouped_items_include l ([], 0) (by simp)
  have htotal := grouped_total_eq_sum l ([], 0) (by simp)
  refine ⟨?_, ?_, ?_⟩
  · intro x hx g hg hmem
    simp only [groupByCategory, List.mem_map] at hg
    obtain ⟨g0, hg0, hgeq⟩ := hg
    have hinc : includeItem x = true := by
      apply hitems g0 hg0
      rw [← hgeq] at hmem
      exact hmem
    rcases hx with hx | hx <;> simp [includeItem, hx] at hinc
  · simp only [groupByCategory, List.map_map]
    rw [htotal]
    congr 1
  · intro g hg
    simp only [groupByCategory, List.mem_map] at hg
    obtain ⟨g0, hg0, hgeq⟩ := hg
    simp only [groupByCategory, ← hgeq]

/-- C10 witness: the total decomposition applied to a concrete list. -/
theorem groupByCategory_spec_witness :
    (groupByCategory [⟨false, some 5, none⟩, ⟨true, some 4, some "compute"⟩]).2
      = ((groupByCategory [⟨false, some 5, none⟩, ⟨true, some 4, some "compute"⟩]).1.map
          CategoryGroup.totalCost).sum :=
  (groupByCategory_spec [⟨false, some 5, none⟩, ⟨true, some 4, some "compute"⟩]).2.1

/-! ## Claim C9: escapeCSV -/

lemma escapeChars_eq_nil_iff (cs : List Char) : escapeChars cs = [] ↔ cs = [] := by
  cases cs with
  | nil => simp [escapeChars]
  | cons c cs =>
    constructor
    · intro h
      unfold escapeChars at h
      split at h <;> simp at h
    · intro h
      simp at h

lemma unescapeChars_cons_cons (c d : Char) (ds : List Char) (h : ¬(c = '\"' ∧ d = '\"')) :
    unescapeChars (c :: d :: ds) = c :: unescapeChars (d :: ds) := by
  conv_lhs => rw [unescapeChars]
  simp only [Bool.and_eq_true, decide_eq_true_eq]
  rw [if_neg h]

lemma unescape_escape (s : List Char) : unescapeChars (escapeChars s) = s := by
  induction s with
  | nil => rfl
  | cons c cs ih =>
    by_cases hc : c = '\"'
    · subst hc
      simp [escapeChars, unescapeChars, ih]
    · simp only [escapeChars, if_neg hc]
      cases h : escapeChars cs with
      | nil =>
        have : cs = [] := (escapeChars_eq_nil_iff cs).mp h
        subst this
        rfl
      | cons d ds =>
        rw [unescapeChars_cons_cons c d ds (fun hcd => hc hcd.1), ← h, ih]

/-- C9: escapeCSV maps null and undefined to the empty string, returns
the string unchanged when it contains no comma, double quote or newline,
and otherwise wraps it in double quotes with every internal double quote
doubled; parsing the output under standard CSV quoting recovers the
original string exactly. -/
theorem escapeCSV_spec (s : List Char) :
    escapeCSV none = []
    ∧ ((s.contains ',' || s.contains '\"' || s.contains '\n') = false →
        escapeCSV (some s) = s)
    ∧ ((s.contains ',' || s.contains '\"' || s.contains '\n') = true →
        escapeCSV (some s) = '\"' :: (escapeChars s ++ ['\"']))
    ∧ csvParseField (escapeCSV (some s)) = s := by
  have hout_true : (s.contains ',' || s.contains '\"' || s.contains '\n') = true →
      escapeCSV (some s) = '\"' :: (escapeChars s ++ ['\"']) := by
    intro h
    simp only [escapeCSV]
    rw [if_pos h]
  have hout_false : (s.contains ',' || s.contains '\"' || s.contains '\n') = false →
      escapeCSV (some s) = s := by
    intro h
    simp only [escapeCSV]
    rw [h]
    simp
  refine ⟨rfl, hout_false, hout_true, ?_⟩
  by_cases h : (s.contains ',' || s.contains '\"' || s.contains '\n') = true
  · rw [hout_true h]
    have hlast : ('\"' :: (escapeChars s ++ ['\"'])).getLast? = some '\"' := by
      have hsh : '\"' :: (escapeChars s ++ ['\"']) = ('\"' :: escapeChars s) ++ ['\"'] := by
        simp
      rw [hsh, List.getLast?_concat]
    unfold csvParseField
    rw [if_pos]
    · simp only [List.drop_succ_cons, List.drop_zero, List.dropLast_concat]
      exact unescape_escape s
    · refine ⟨by simp, by simp, hlast⟩
  · rw [Bool.not_eq_true] at h
    rw [hout_false h]
    have hq : s.contains '\"' = false := by
      cases hcq : s.contains '\"'
      · rfl
      · rw [hcq] at h
        simp at h
    unfold csvParseField
    rw [if_neg]
    rintro ⟨-, hhead, -⟩
    cases s with
    | nil => simp at hhead
    | cons c cs =>
      simp only [List.head?_cons, Option.some_inj] at hhead
      subst hhead
      simp at hq

/-- C9 witness: the theorem applied to a concrete string containing a
comma and a double quote. -/
theorem escapeCSV_spec_witness :
    escapeCSV (some ['a', ',', '\"', 'b'])
      = ['\"', 'a', ',', '\"', '\"', 'b', '\"']
    ∧ csvParseField (escapeCSV (some ['a', ',', '\"', 'b'])) = ['a', ',', '\"', 'b'] :=
  ⟨(escapeCSV_spec ['a', ',', '\"', 'b']).2.2.1 (by decide),
   (escapeCSV_spec ['a', ',', '\"', 'b']).2.2.2⟩

/-! ## Claim C7: the manifest maps (service, region) to path and timestamp -/

lemma find?_key_eq {α β : Type} [DecidableEq β] (key : α → β) (l : List α) (x : α) (b : β)
    (hnd : (l.map key).Nodup) (hx : x ∈ l) (hb : key x = b) :
    l.find? (fun y => key y = b) = some x := by
  induction l with
  | nil => cases hx
  | cons a as ih =>
    have hnd2 : (key a :: as.map key).Nodup := by simpa using hnd
    rcases List.mem_cons.mp hx with rfl | hx2
    · have hpa : decide (key x = b) = true := by simp [hb]
      simp [List.find?, hpa]
    · have hne : key a ≠ b := by
        intro he
        exact (List.nodup_cons.mp hnd2).1 ((he.trans hb.symm) ▸ List.mem_map_of_mem key hx2)
      have hpa : decide (key a = b) = false := by simp [hne]
      simp only [List.find?, hpa]
      exact ih (List.nodup_cons.mp hnd2).2 hx2

lemma regionOutput_shape (out : List String) (svc : String) (gzip : Bool)
    (filter : Option (List String)) (e : RegionEntry) (p : SyncTask × FileEntry)
    (h : regionOutput out svc gzip filter e = some p) :
    p.1.serviceCode = svc ∧ p.2.regionCode = p.1.regionCode
      ∧ p.2.path = relativeTo out.dropLast p.1.destPath := by
  unfold regionOutput at h
  by_cases hk : regionKept filter (regionCodeOf e) = true
  · rw [if_pos hk] at h
    cases hu : toAbsUrl e.currentVersionUrl with
    | none =>
      rw [hu] at h
      simp at h
    | some priceUrl =>
      rw [hu] at h
      rw [Option.some_inj] at h
      subst h
      exact ⟨rfl, rfl, rfl⟩
  · rw [if_neg hk] at h
    simp at h

/-- C7: for every (service, region) pair the sync process downloads, the
manifest it writes records a file path for the pair, and the publication
timestamp of the service's region index, associated with the pair: looking
the pair up in the manifest yields exactly the relative path of the
download destination together with that timestamp. -/
theorem manifest_maps_pairs (out : List String) (gzip : Bool)
    (filter : Option (List String)) (sis : List ServiceInput) (si : ServiceInput)
    (t : SyncTask) (ts : String)
    (hnd : (sis.map ServiceInput.serviceCode).Nodup)
    (hmem : si ∈ sis)
    (hrc : ((si.doc.regions.filterMap
        (regionOutput out si.serviceCode gzip filter)).map
          (fun p => p.2.regionCode)).Nodup)
    (ht : t ∈ tasksOf out gzip filter si)
    (hts : si.doc.publicationDate = some ts) :
    manifestLookup (manifestServices out gzip filter sis) t.serviceCode t.regionCode
      = some (relativeTo out.dropLast t.destPath, some ts) := by
  obtain ⟨p, hp, hpt⟩ := List.mem_map.mp ht
  obtain ⟨e, he, heo⟩ := List.mem_filterMap.mp hp
  obtain ⟨hsvc, hregc, hpath⟩ := regionOutput_shape out si.serviceCode gzip filter e p heo
  have hfind : (manifestServices out gzip filter sis).find?
      (fun se => se.serviceCode = t.serviceCode)
        = some (serviceEntryOf out gzip filter si) := by
    refine find?_key_eq ServiceEntry.serviceCode _ (serviceEntryOf out gzip filter si)
      _ ?_ (List.mem_map_of_mem (serviceEntryOf out gzip filter) hmem) ?_
    · show ((sis.map (serviceEntryOf out gzip filter)).map ServiceEntry.serviceCode).Nodup
      rw [List.map_map]
      exact hnd
    · show si.serviceCode = t.serviceCode
      rw [← hpt]
      exact hsvc.symm
  have hfile : (serviceEntryOf out gzip filter si).files.find?
      (fun f => f.regionCode = t.regionCode) = some p.2 := by
    refine find?_key_eq FileEntry.regionCode _ p.2 _ ?_
      (List.mem_map_of_mem Prod.snd hp) ?_
    · show (((si.doc.regions.filterMap
          (regionOutput out si.serviceCode gzip filter)).map Prod.snd).map
            FileEntry.regionCode).Nodup
      rw [List.map_map]
      exact hrc
    · rw [hregc, hpt]
  unfold manifestLookup
  rw [hfind]
  simp only [hfile, Option.map_some', Option.some_inj]
  refine Prod.ext ?_ ?_
  · show p.2.path = relativeTo out.dropLast t.destPath
    rw [hpath, hpt]
  · show (serviceEntryOf out gzip filter si).publicationDate = some ts
    simp only [serviceEntryOf]
    exact hts

/-- C7 witness: the theorem applied to a one-service, one-region input. -/
theorem manifest_maps_pairs_witness :
    manifestLookup
        (manifestServices ["pricing-cache", "aws"] true none
          [⟨"AmazonEC2", "riu", ⟨some "2024-01-01", [⟨"us-east-1", none, some "/v1"⟩]⟩⟩])
        "AmazonEC2" "us-east-1"
      = some (["aws", "AmazonEC2", "us-east-1.json.gz"], some "2024-01-01") :=
  manifest_maps_pairs ["pricing-cache", "aws"] true none
    [⟨"AmazonEC2", "riu", ⟨some "2024-01-01", [⟨"us-east-1", none, some "/v1"⟩]⟩⟩]
    ⟨"AmazonEC2", "riu", ⟨some "2024-01-01", [⟨"us-east-1", none, some "/v1"⟩]⟩⟩
    ⟨"AmazonEC2", "us-east-1", BASE ++ "/v1",
      ["pricing-cache", "aws", "AmazonEC2", "us-east-1.json.gz"], true⟩
    "2024-01-01" (by simp) (by simp) (by decide) (by decide) rfl

/-! ## Claim C3: deterministic index build -/

lemma keepBetter_sku_le_left (a b : PriceRecord) :
    (keepBetter a b).sourceSku ≤ a.sourceSku := by
  unfold keepBetter
  split
  · exact le_refl _
  · exact le_of_not_le (by assumption)

lemma keepBetter_sku_le_right (a b : PriceRecord) :
    (keepBetter a b).sourceSku ≤ b.sourceSku := by
  unfold keepBetter
  split
  · assumption
  · exact le_refl _

lemma keepBetter_eq_or (a b : PriceRecord) : keepBetter a b = a ∨ keepBetter a b = b := by
  unfold keepBetter
  split
  · exact Or.inl rfl
  · exact Or.inr rfl

lemma keepBetter_comm {a b : PriceRecord} (h : a.sourceSku ≠ b.sourceSku) :
    keepBetter a b = keepBetter b a := by
  unfold keepBetter
  by_cases h1 : a.sourceSku ≤ b.sourceSku
  · have h2 : ¬b.sourceSku ≤ a.sourceSku := fun h2 => h (le_antisymm h1 h2)
    rw [if_pos h1, if_neg h2]
  · have h2 : b.sourceSku ≤ a.sourceSku := le_of_not_le h1
    rw [if_neg h1, if_pos h2]

lemma keepBetter_right_comm (r0 : PriceRecord) {a b : PriceRecord}
    (h : a.sourceSku ≠ b.sourceSku) :
    keepBetter (keepBetter r0 a) b = keepBetter (keepBetter r0 b) a := by
  unfold keepBetter
  split_ifs with h1 h2 h3 h4 h5 h6 h7 h8 <;> try rfl
  · exact absurd (h1.trans (le_of_not_le h3)) h2
  · exact absurd (le_antisymm h4 h6) h
  · exact absurd (h7.trans (le_of_not_le h4)) h1
  · exact absurd (le_of_not_le h4) h8

lemma insertRecord_right_comm (keyFn : PriceRecord → String) {x y : PriceRecord}
    (hxy : x = y ∨ x.sourceSku ≠ y.sourceSku) (z : RegionIdx) :
    insertRecord keyFn (insertRecord keyFn z x) y
      = insertRecord keyFn (insertRecord keyFn z y) x := by
  rcases hxy with rfl | hxy
  · rfl
  funext k
  unfold insertRecord
  by_cases hx : k = keyFn x <;> by_cases hy : k = keyFn y
  · rw [if_pos hx, if_pos hy, if_pos hx, if_pos hy]
    cases hz : z k with
    | none =>
      simp only [keepBetter_comm hxy]
    | some r0 =>
      simp only [keepBetter_right_comm r0 hxy]
  · simp only [if_pos hx, if_neg hy]
  · simp only [if_pos hy, if_neg hx]
  · simp only [if_neg hx, if_neg hy]

lemma map_sku_nodup_inj {l : List PriceRecord}
    (hsku : (l.map PriceRecord.sourceSku).Nodup) {x y : PriceRecord}
    (hx : x ∈ l) (hy : y ∈ l) :
    x = y ∨ x.sourceSku ≠ y.sourceSku := by
  by_cases hxy : x = y
  · exact Or.inl hxy
  · exact Or.inr fun he =>
      hxy (List.inj_on_of_nodup_map hsku hx hy he)

lemma buildIndex_perm (keyFn : PriceRecord → String) {l l2 : List PriceRecord}
    (hperm : l.Perm l2) (hsku : (l.map PriceRecord.sourceSku).Nodup) :
    buildIndex keyFn l = buildIndex keyFn l2 := by
  unfold buildIndex
  exact hperm.foldl_eq'
    (fun x hx y hy z => insertRecord_right_comm keyFn (map_sku_nodup_inj hsku hx hy) z)
    (fun _ => none)

lemma buildIndex_append (keyFn : PriceRecord → String) (l : List PriceRecord)
    (a : PriceRecord) :
    buildIndex keyFn (l ++ [a]) = insertRecord keyFn (buildIndex keyFn l) a := by
  unfold buildIndex
  rw [List.foldl_append]
  rfl

lemma buildIndex_none_iff (keyFn : PriceRecord → String) (l : List PriceRecord)
    (k : String) :
    buildIndex keyFn l k = none ↔ ∀ r ∈ l, keyFn r ≠ k := by
  induction l using List.reverseRecOn with
  | nil => simp [buildIndex]
  | append_singleton l a ih =>
    rw [buildIndex_append]
    unfold insertRecord
    by_cases hk : k = keyFn a
    · rw [if_pos hk]
      constructor
      · intro h
        cases hz : buildIndex keyFn l k <;> rw [hz] at h <;> cases h
      · intro h
        exact absurd hk.symm (h a (by simp))
    · rw [if_neg hk]
      rw [ih]
      constructor
      · intro h r hr
        rcases List.mem_append.mp hr with hr | hr
        · exact h r hr
        · rw [List.mem_singleton.mp hr]
          exact fun he => hk he.symm
      · intro h r hr
        exact h r (List.mem_append.mpr (Or.inl hr))

lemma buildIndex_min_sku (keyFn : PriceRecord → String) (l : List PriceRecord)
    (k : String) (r : PriceRecord) (h : buildIndex keyFn l k = some r) :
    r ∈ l ∧ keyFn r = k ∧ ∀ r2 ∈ l, keyFn r2 = k → r.sourceSku ≤ r2.sourceSku := by
  induction l using List.reverseRecOn generalizing r with
  | nil => cases h
  | append_singleton l a ih =>
    rw [buildIndex_append] at h
    unfold insertRecord at h
    by_cases hk : k = keyFn a
    · rw [if_pos hk] at h
      cases hz : buildIndex keyFn l k with
      | none =>
        rw [hz, Option.some_inj] at h
        subst h
        refine ⟨by simp, hk.symm, ?_⟩
        intro r2 hr2 hk2
        rcases List.mem_append.mp hr2 with hr2 | hr2
        · exact absurd hk2 ((buildIndex_none_iff keyFn l k).mp hz r2 hr2)
        · rw [List.mem_singleton.mp hr2]
      | some r0 =>
        rw [hz, Option.some_inj] at h
        obtain ⟨hmem0, hkey0, hmin0⟩ := ih r0 hz
        subst h
        refine ⟨?_, ?_, ?_⟩
        · rcases keepBetter_eq_or r0 a with he | he <;> rw [he]
          · exact List.mem_append.mpr (Or.inl hmem0)
          · simp
        · rcases keepBetter_eq_or r0 a with he | he <;> rw [he]
          · exact hkey0
          · exact hk.symm
        · intro r2 hr2 hk2
          rcases List.mem_append.mp hr2 with hr2 | hr2
          · exact (keepBetter_sku_le_left r0 a).trans (hmin0 r2 hr2 hk2)
          · rw [List.mem_singleton.mp hr2]
            exact keepBetter_sku_le_right r0 a
    · rw [if_neg hk] at h
      obtain ⟨hmem0, hkey0, hmin0⟩ := ih r h
      refine ⟨List.mem_append.mpr (Or.inl hmem0), hkey0, ?_⟩
      intro r2 hr2 hk2
      rcases List.mem_append.mp hr2 with hr2 | hr2
      · exact hmin0 r2 hr2 hk2
      · rw [List.mem_singleton.mp hr2] at hk2
        exact absurd hk2.symm hk

/-- C3: for a fixed catalog the index build is deterministic — any
reordering of the records yields the same entryCount and the same record
for every lookup key — and on key collisions the record kept is the one
whose sourceSku is lexicographically first among all records sharing the
key. -/
theorem index_build_deterministic (keyFn : PriceRecord → String)
    (l l2 : List PriceRecord) (hperm : l.Perm l2)
    (hsku : (l.map PriceRecord.sourceSku).Nodup) :
    entryCount keyFn l = entryCount keyFn l2
    ∧ (∀ k, buildIndex keyFn l k = buildIndex keyFn l2 k)
    ∧ (∀ k r, buildIndex keyFn l k = some r →
        r ∈ l ∧ keyFn r = k ∧ ∀ r2 ∈ l, keyFn r2 = k → r.sourceSku ≤ r2.sourceSku) := by
  refine ⟨?_, ?_, ?_⟩
  · unfold entryCount
    exact ((hperm.map keyFn).dedup).length_eq
  · intro k
    rw [buildIndex_perm keyFn hperm hsku]
  · intro k r h
    exact buildIndex_min_sku keyFn l k r h

/-- C3 witness: the theorem applied to a two-record catalog whose records
collide on the constant key function, in both orders. -/
theorem index_build_deterministic_witness :
    buildIndex (fun _ => "k")
        [⟨.hour, 1, [], "B"⟩, ⟨.hour, 2, [], "A"⟩] "k"
      = buildIndex (fun _ => "k")
        [⟨.hour, 2, [], "A"⟩, ⟨.hour, 1, [], "B"⟩] "k" :=
  (index_build_deterministic (fun _ => "k")
      [⟨.hour, 1, [], "B"⟩, ⟨.hour, 2, [], "A"⟩]
      [⟨.hour, 2, [], "A"⟩, ⟨.hour, 1, [], "B"⟩]
      (List.Perm.swap _ _ _) (by decide)).2.1 "k"

/-! ## Claim C1: coalescing of concurrent getOrBuild calls -/

lemma run_append (σ : CacheState) (es1 es2 : List CacheEvent) :
    run σ (es1 ++ es2) = run (run σ es1) es2 := by
  unfold run
  rw [List.foldl_append]

/-- The trace of N concurrent first-time callers for a key: their calls
interleave in some arrival order, then the single in-flight build
completes. -/
def coalesceTrace (cs : List ℕ) (k : SrKey) (o : BuildOutcome) : List CacheEvent :=
  cs.map (fun c => CacheEvent.call c k) ++ [CacheEvent.complete k o]

lemma step_call_notBuilt {σ : CacheState} {k : SrKey} (h : σ.slot k = .notBuilt) (c : ℕ) :
    step σ (.call c k)
      = { σ with
          slot := fun k2 => if k2 = k then .inProgress else σ.slot k2
          loads := fun k2 => if k2 = k then σ.loads k + 1 else σ.loads k2
          waiting := fun k2 => if k2 = k then [c] else σ.waiting k2 } := by
  simp only [step, h]

lemma step_call_inProgress {σ : CacheState} {k : SrKey} (h : σ.slot k = .inProgress) (c : ℕ) :
    step σ (.call c k)
      = { σ with waiting := fun k2 => if k2 = k then c :: σ.waiting k else σ.waiting k2 } := by
  simp only [step, h]

lemma step_complete_inProgress {σ : CacheState} {k : SrKey} (h : σ.slot k = .inProgress)
    (o : BuildOutcome) :
    step σ (.complete k o)
      = { σ with
          slot := fun k2 =>
            if k2 = k then
              match o with
              | .success idx => .built idx
              | .failure _ => .notBuilt
            else σ.slot k2
          waiting := fun k2 => if k2 = k then [] else σ.waiting k2
          done := deliver σ.done (σ.waiting k) o } := by
  simp only [step, h]

lemma run_calls_inProgress (k : SrKey) (cs : List ℕ) (σ : CacheState)
    (h : σ.slot k = .inProgress) :
    (run σ (cs.map (fun c => CacheEvent.call c k))).slot = σ.slot
    ∧ (run σ (cs.map (fun c => CacheEvent.call c k))).loads = σ.loads
    ∧ (run σ (cs.map (fun c => CacheEvent.call c k))).done = σ.done
    ∧ (run σ (cs.map (fun c => CacheEvent.call c k))).waiting k
        = cs.reverse ++ σ.waiting k := by
  induction cs generalizing σ with
  | nil => exact ⟨rfl, rfl, rfl, rfl⟩
  | cons c rest ih =>
    have hstep := step_call_inProgress h c
    have hslot1 : (step σ (.call c k)).slot k = .inProgress := by
      rw [hstep]
      exact h
    have hrun : run σ ((c :: rest).map (fun c2 => CacheEvent.call c2 k))
        = run (step σ (.call c k)) (rest.map (fun c2 => CacheEvent.call c2 k)) := rfl
    obtain ⟨h1, h2, h3, h4⟩ := ih (step σ (.call c k)) hslot1
    rw [hrun]
    refine ⟨?_, ?_, ?_, ?_⟩
    · rw [h1, hstep]
    · rw [h2, hstep]
    · rw [h3, hstep]
    · rw [h4, hstep]
      simp

/-- C1: for a key not yet built, a trace in which N ≥ 1 callers all
arrive before the build completes performs exactly one catalog load,
delivers the single build's outcome to every one of the N callers, and
has at most one load in flight at every point of the trace. -/
theorem getOrBuild_coalesces (σ0 : CacheState) (k : SrKey) (cs : List ℕ)
    (o : BuildOutcome) (hslot : σ0.slot k = .notBuilt) (hload : σ0.loads k = 0)
    (hne : cs ≠ []) :
    (run σ0 (coalesceTrace cs k o)).loads k = 1
    ∧ (∀ c ∈ cs, (run σ0 (coalesceTrace cs k o)).done c = some o)
    ∧ (∀ n, (run σ0 ((coalesceTrace cs k o).take n)).loads k ≤ 1) := by
  obtain ⟨c0, rest, rfl⟩ : ∃ c0 rest, cs = c0 :: rest := by
    cases cs with
    | nil => exact absurd rfl hne
    | cons c0 rest => exact ⟨c0, rest, rfl⟩
  have hstep0 := step_call_notBuilt hslot c0
  have hslot1 : (step σ0 (.call c0 k)).slot k = .inProgress := by
    rw [hstep0]
    simp
  have hload1 : (step σ0 (.call c0 k)).loads k = 1 := by
    rw [hstep0]
    simp [hload]
  have hwait1 : (step σ0 (.call c0 k)).waiting k = [c0] := by
    rw [hstep0]
    simp
  obtain ⟨h1, h2, h3, h4⟩ :=
    run_calls_inProgress k rest (step σ0 (.call c0 k)) hslot1
  have hslot2 : (run (step σ0 (.call c0 k))
      (rest.map (fun c => CacheEvent.call c k))).slot k = .inProgress := by
    rw [h1]
    exact hslot1
  have hstep3 := step_complete_inProgress hslot2 o
  have hrun : ∀ es, run σ0 (CacheEvent.call c0 k :: es) = run (step σ0 (.call c0 k)) es :=
    fun es => rfl
  have htrace : coalesceTrace (c0 :: rest) k o
      = CacheEvent.call c0 k :: (rest.map (fun c => CacheEvent.call c k)
          ++ [CacheEvent.complete k o]) := by
    simp [coalesceTrace]
  refine ⟨?_, ?_, ?_⟩
  · rw [htrace, hrun, run_append]
    show (step _ (CacheEvent.complete k o)).loads k = 1
    rw [hstep3]
    show (run (step σ0 (.call c0 k)) (rest.map (fun c => CacheEvent.call c k))).loads k = 1
    rw [h2]
    exact hload1
  · intro c hc
    rw [htrace, hrun, run_append]
    show (step _ (CacheEvent.complete k o)).done c = some o
    rw [hstep3]
    show deliver _ ((run (step σ0 (.call c0 k))
        (rest.map (fun c2 => CacheEvent.call c2 k))).waiting k) o c = some o
    rw [h4, hwait1]
    unfold deliver
    rw [if_pos]
    rcases List.mem_cons.mp hc with rfl | hc2
    · simp
    · simp [hc2]
  · intro n
    cases n with
    | zero => simp [run, hload]
    | succ m =>
      rw [htrace]
      rw [List.take_succ_cons]
      rw [hrun]
      rw [List.take_append_eq_append_take]
      rw [run_append]
      have hmap : (rest.map (fun c => CacheEvent.call c k)).take m
          = (rest.take m).map (fun c => CacheEvent.call c k) := by
        rw [List.map_take]
      obtain ⟨g1, g2, g3, g4⟩ :=
        run_calls_inProgress k (rest.take m) (step σ0 (.call c0 k)) hslot1
      rw [hmap]
      set σmid := run (step σ0 (.call c0 k))
        ((rest.take m).map (fun c => CacheEvent.call c k)) with hmid
      have hmidload : σmid.loads k = 1 := by
        rw [g2]
        exact hload1
      have hmidslot : σmid.slot k = .inProgress := by
        rw [g1]
        exact hslot1
      cases htk : (List.take (m - (rest.map (fun c => CacheEvent.call c k)).length)
          [CacheEvent.complete k o]) with
      | nil =>
        show σmid.loads k ≤ 1
        exact le_of_eq hmidload
      | cons e es =>
        have he : e = CacheEvent.complete k o ∧ es = [] := by
          cases hm : m - (rest.map (fun c => CacheEvent.call c k)).length with
          | zero =>
            rw [hm] at htk
            cases htk
          | succ j =>
            rw [hm] at htk
            simp [List.take] at htk
            exact ⟨htk.1.symm, htk.2⟩
        obtain ⟨rfl, rfl⟩ := he
        show (step σmid (CacheEvent.complete k o)).loads k ≤ 1
        rw [step_complete_inProgress hmidslot o]
        show σmid.loads k ≤ 1
        exact le_of_eq hmidload

/-- C1 witness: three concurrent callers on a fresh cache. -/
theorem getOrBuild_coalesces_witness :
    (run
        ⟨fun _ => .notBuilt, fun _ => 0, fun _ => [], fun _ => none⟩
        (coalesceTrace [0, 1, 2] ("AmazonEC2", "us-east-1") (.failure "CatalogParseError"))).loads
      ("AmazonEC2", "us-east-1") = 1
    ∧ (run
        ⟨fun _ => .notBuilt, fun _ => 0, fun _ => [], fun _ => none⟩
        (coalesceTrace [0, 1, 2] ("AmazonEC2", "us-east-1") (.failure "CatalogParseError"))).done 1
      = some (.failure "CatalogParseError") :=
  ⟨(getOrBuild_coalesces _ _ [0, 1, 2] _ rfl rfl (by simp)).1,
   (getOrBuild_coalesces _ _ [0, 1, 2] _ rfl rfl (by simp)).2.1 1 (by simp)⟩

/-! ## Claim C5: build failures are delivered, cleared and retried -/

/-- C5: when the in-flight build for a key fails, every caller waiting on
that build receives the failure, the in-progress marker for the key is
cleared back to not-built, and the failure is not cached: the next call
for the same key invokes the catalog loader again, starting a fresh
build. -/
theorem build_failure_retry (σ : CacheState) (k : SrKey) (err : String) (c2 : ℕ)
    (h : σ.slot k = .inProgress) :
    (∀ c ∈ σ.waiting k,
        (step σ (.complete k (.failure err))).done c = some (.failure err))
    ∧ (step σ (.complete k (.failure err))).slot k = .notBuilt
    ∧ (step (step σ (.complete k (.failure err))) (.call c2 k)).loads k
        = σ.loads k + 1
    ∧ (step (step σ (.complete k (.failure err))) (.call c2 k)).slot k
        = .inProgress := by
  have hstep := step_complete_inProgress h (.failure err)
  have hslot1 : (step σ (.complete k (.failure err))).slot k = .notBuilt := by
    rw [hstep]
    simp
  have hstep2 := step_call_notBuilt hslot1 c2
  refine ⟨?_, hslot1, ?_, ?_⟩
  · intro c hc
    rw [hstep]
    show deliver σ.done (σ.waiting k) (.failure err) c = some (.failure err)
    unfold deliver
    rw [if_pos hc]
  · rw [hstep2]
    simp [hstep]
  · rw [hstep2]
    simp

/-- C5 witness: a failing build with two waiting callers. -/
theorem build_failure_retry_witness :
    (step ⟨fun _ => .inProgress, fun _ => 0, fun _ => [5, 7], fun _ => none⟩
        (.complete ("AmazonRDS", "eu-west-1") (.failure "boom"))).done 5
      = some (.failure "boom")
    ∧ (step (step ⟨fun _ => .inProgress, fun _ => 0, fun _ => [5, 7], fun _ => none⟩
          (.complete ("AmazonRDS", "eu-west-1") (.failure "boom")))
        (.call 9 ("AmazonRDS", "eu-west-1"))).loads ("AmazonRDS", "eu-west-1") = 0 + 1 :=
  ⟨(build_failure_retry ⟨fun _ => .inProgress, fun _ => 0, fun _ => [5, 7], fun _ => none⟩
      ("AmazonRDS", "eu-west-1") "boom" 9 rfl).1 5 (by simp),
   (build_failure_retry ⟨fun _ => .inProgress, fun _ => 0, fun _ => [5, 7], fun _ => none⟩
      ("AmazonRDS", "eu-west-1") "boom" 9 rfl).2.2.1⟩

/-! ## Claim C6: failures for one key do not affect other keys -/

lemma step_call_built {σ : CacheState} {k : SrKey} {idx : RegionIdx}
    (h : σ.slot k = .built idx) (c : ℕ) :
    step σ (.call c k)
      = { σ with done := fun c2 => if c2 = c then some (.success idx) else σ.done c2 } := by
  simp only [step, h]

lemma step_complete_built {σ : CacheState} {k : SrKey} {idx : RegionIdx}
    (h : σ.slot k = .built idx) (o : BuildOutcome) :
    step σ (.complete k o) = σ := by
  simp only [step, h]

lemma step_complete_notBuilt {σ : CacheState} {k : SrKey}
    (h : σ.slot k = .notBuilt) (o : BuildOutcome) :
    step σ (.complete k o) = σ := by
  simp only [step, h]

lemma step_other_key (σ : CacheState) (e : CacheEvent) (k2 : SrKey)
    (hne : k2 ≠ eventKey e) :
    (step σ e).slot k2 = σ.slot k2
    ∧ (step σ e).loads k2 = σ.loads k2
    ∧ (step σ e).waiting k2 = σ.waiting k2 := by
  cases e with
  | call c k =>
    simp only [eventKey] at hne
    cases h : σ.slot k with
    | notBuilt =>
      rw [step_call_notBuilt h c]
      exact ⟨by simp [hne], by simp [hne], by simp [hne]⟩
    | inProgress =>
      rw [step_call_inProgress h c]
      exact ⟨rfl, rfl, by simp [hne]⟩
    | built idx =>
      rw [step_call_built h c]
      exact ⟨rfl, rfl, rfl⟩
  | complete k o =>
    simp only [eventKey] at hne
    cases h : σ.slot k with
    | notBuilt =>
      rw [step_complete_notBuilt h o]
      exact ⟨rfl, rfl, rfl⟩
    | inProgress =>
      rw [step_complete_inProgress h o]
      exact ⟨by simp [hne], rfl, by simp [hne]⟩
    | built idx =>
      rw [step_complete_built h o]
      exact ⟨rfl, rfl, rfl⟩

/-- C6: a trace of events all concerning one (service, region) key —
including a failing build for it — leaves the cache state of every other
key unchanged, so a lookup against any other key returns exactly what it
would have returned had those events never occurred. -/
theorem failure_isolation (σ : CacheState) (es : List CacheEvent) (k k2 : SrKey)
    (hes : ∀ e ∈ es, eventKey e = k) (hne : k2 ≠ k) :
    (run σ es).slot k2 = σ.slot k2
    ∧ (run σ es).loads k2 = σ.loads k2
    ∧ (run σ es).waiting k2 = σ.waiting k2
    ∧ (∀ key qty, cachedLookup (run σ es) k2 key qty = cachedLookup σ k2 key qty) := by
  have hmain : (run σ es).slot k2 = σ.slot k2
      ∧ (run σ es).loads k2 = σ.loads k2
      ∧ (run σ es).waiting k2 = σ.waiting k2 := by
    induction es generalizing σ with
    | nil => exact ⟨rfl, rfl, rfl⟩
    | cons e rest ih =>
      have hek : k2 ≠ eventKey e := by
        rw [hes e (by simp)]
        exact hne
      obtain ⟨s1, s2, s3⟩ := step_other_key σ e k2 hek
      obtain ⟨r1, r2, r3⟩ := ih (step σ e) (fun e2 he2 => hes e2 (by simp [he2]))
      exact ⟨r1.trans s1, r2.trans s2, r3.trans s3⟩
  refine ⟨hmain.1, hmain.2.1, hmain.2.2, ?_⟩
  intro key qty
  unfold cachedLookup
  rw [hmain.1]

/-- C6 witness: a failing build for one key leaves a built index for
another key untouched. -/
theorem failure_isolation_witness :
    (run
        ⟨fun _ => .inProgress, fun _ => 1, fun _ => [], fun _ => none⟩
        [.call 0 ("AmazonEC2", "us-east-1"),
         .complete ("AmazonEC2", "us-east-1") (.failure "corrupt catalog")]).loads
      ("AmazonRDS", "eu-west-1") = 1
    ∧ cachedLookup
        (run
          ⟨fun _ => .inProgress, fun _ => 1, fun _ => [], fun _ => none⟩
          [.call 0 ("AmazonEC2", "us-east-1"),
           .complete ("AmazonEC2", "us-east-1") (.failure "corrupt catalog")])
        ("AmazonRDS", "eu-west-1") "db.t3.micro:mysql:single-az" 1
      = cachedLookup
          ⟨fun _ => .inProgress, fun _ => 1, fun _ => [], fun _ => none⟩
          ("AmazonRDS", "eu-west-1") "db.t3.micro:mysql:single-az" 1 :=
  ⟨(failure_isolation
      ⟨fun _ => .inProgress, fun _ => 1, fun _ => [], fun _ => none⟩
      [.call 0 ("AmazonEC2", "us-east-1"),
       .complete ("AmazonEC2", "us-east-1") (.failure "corrupt catalog")]
      ("AmazonEC2", "us-east-1") ("AmazonRDS", "eu-west-1")
      (by intro e he; simp at he; rcases he with rfl | rfl <;> rfl)
      (by decide)).2.1,
   (failure_isolation
      ⟨fun _ => .inProgress, fun _ => 1, fun _ => [], fun _ => none⟩
      [.call 0 ("AmazonEC2", "us-east-1"),
       .complete ("AmazonEC2", "us-east-1") (.failure "corrupt catalog")]
      ("AmazonEC2", "us-east-1") ("AmazonRDS", "eu-west-1")
      (by intro e he; simp at he; rcases he with rfl | rfl <;> rfl)
      (by decide)).2.2.2 "db.t3.micro:mysql:single-az" 1⟩

end TerraformCost
